import Mathlib

/-!
Verification development for the speaker identity resolution engine of
`balance-my-meetings` (`src/backend/server.py`).

The Python module keeps four global variables (`audio_buffer`,
`current_diarization`, `manual_speakers`, `speaker_counter`); we model them as
the fields of `ServerState`.  Python's insertion-ordered dicts are modeled as
association lists (`List (String × _)`), float seconds as `ℚ`, and
`float('inf')` as `⊤ : WithTop ℚ`.  Each fallible HTTP handler is modeled as a
function returning the (possibly unchanged) state together with an
`Except String _` response.
-/

namespace BalanceMyMeetings

/-- a diarization segment `{speaker, start, end}` as returned by the provider. -/
structure Segment where
  speaker : String
  start : ℚ
  «end» : ℚ
deriving DecidableEq

/-- the value stored in `manual_speakers`: `{'name': …, 'timecode': …, 'order': …}`. -/
structure ManualData where
  name : String
  timecode : ℚ
  order : ℕ
deriving DecidableEq

/-- an insertion-ordered dict of manual speakers, keyed by `MANUAL_xx` id. -/
abbrev SpeakerDict := List (String × ManualData)

/-- lookup in an insertion-ordered dict (first matching key wins). -/
def alookup {α : Type} : List (String × α) → String → Option α
  | [], _ => none
  | (k, v) :: rest, key => if k = key then some v else alookup rest key

/-- Python dict assignment `d[k] = v`: update the existing key in place, else append. -/
def dictInsert {α : Type} : List (String × α) → String → α → List (String × α)
  | [], k, v => [(k, v)]
  | (p, w) :: rest, k, v => if p = k then (p, v) :: rest else (p, w) :: dictInsert rest k v

/-- distance from a timecode to a single segment when the timecode is outside it
(`segment['start'] - timecode` if before, `timecode - segment['end']` otherwise). -/
def segmentDistance (timecode : ℚ) (s : Segment) : ℚ :=
  if timecode < s.start then s.start - timecode else timecode - s.«end»

/-- the loop of `calculate_min_distance_to_speaker`, carrying the running
`min_distance` (initially `float('inf')`) and returning `0` as soon as the
timecode falls inside a segment. -/
def minDistanceAux (timecode : ℚ) (acc : WithTop ℚ) : List Segment → WithTop ℚ
  | [] => acc
  | s :: rest =>
    if s.start ≤ timecode ∧ timecode ≤ s.«end» then 0
    else minDistanceAux timecode (min acc ↑(segmentDistance timecode s)) rest

/-- `calculate_min_distance_to_speaker(timecode, segments)` from `server.py`. -/
def calculate_min_distance_to_speaker (timecode : ℚ) (segments : List Segment) : WithTop ℚ :=
  minDistanceAux timecode ⊤ segments

/-- `distanceToGroup` exactly as the spec words it: `0` if the timecode falls
within some segment's `[start, end]`; otherwise the minimum over all segments
of `min(|timecode - start|, |timecode - end|)`; `+infinity` for an empty group. -/
def specDistanceToGroup (timecode : ℚ) (segments : List Segment) : WithTop ℚ :=
  if segments.any (fun s => decide (s.start ≤ timecode ∧ timecode ≤ s.«end»)) then 0
  else (segments.map (fun s => ((min |timecode - s.start| |timecode - s.«end»| : ℚ) : WithTop ℚ))).foldr min ⊤

/-- one step of grouping a list by key, preserving first-encounter key order and
the order of elements within each group (Python `dict` of lists). -/
def insertByKey {κ α : Type} [DecidableEq κ] (key : α → κ) :
    List (κ × List α) → α → List (κ × List α)
  | [], a => [(key a, [a])]
  | (k, g) :: rest, a =>
    if k = key a then (k, g ++ [a]) :: rest else (k, g) :: insertByKey key rest a

/-- group a list by key, insertion-ordered as a Python dict of lists. -/
def groupByKey {κ α : Type} [DecidableEq κ] (key : α → κ) (l : List α) : List (κ × List α) :=
  l.foldl (insertByKey key) []

/-- the `pyannote_segments` grouping of `map_pyannote_to_manual_speakers`. -/
def groupByLabel (segs : List Segment) : List (String × List Segment) :=
  groupByKey Segment.speaker segs

/-- the distinct raw labels of a segment list in first-encountered order. -/
def firstEncounterLabels (segs : List Segment) : List String :=
  segs.foldl (fun acc s => if s.speaker ∈ acc then acc else acc ++ [s.speaker]) []

/-- a `(cost, manual_id, pyannote_id)` entry of the matcher's cost list. -/
abbrev CostTriple := WithTop ℚ × String × String

/-- Python's ascending tuple comparison on `(cost, manual_id, pyannote_id)`:
lexicographic on the cost and then on the two id strings (compared by code
points, i.e. by the lexicographic order on their character lists). -/
def costLE (a b : CostTriple) : Prop :=
  a.1 < b.1 ∨ (a.1 = b.1 ∧
    (a.2.1.data < b.2.1.data ∨ (a.2.1 = b.2.1 ∧
      (a.2.2.data < b.2.2.data ∨ a.2.2 = b.2.2))))

instance : DecidableRel costLE := fun a b => by
  unfold costLE; infer_instance

instance : IsTotal CostTriple costLE where
  total a b := by
    unfold costLE
    rcases lt_trichotomy a.1 b.1 with h1 | h1 | h1
    · exact Or.inl (Or.inl h1)
    · rcases lt_trichotomy a.2.1.data b.2.1.data with h2 | h2 | h2
      · exact Or.inl (Or.inr ⟨h1, Or.inl h2⟩)
      · rcases lt_trichotomy a.2.2.data b.2.2.data with h3 | h3 | h3
        · exact Or.inl (Or.inr ⟨h1, Or.inr ⟨String.ext h2, Or.inl h3⟩⟩)
        · exact Or.inl (Or.inr ⟨h1, Or.inr ⟨String.ext h2, Or.inr (String.ext h3)⟩⟩)
        · exact Or.inr (Or.inr ⟨h1.symm, Or.inr ⟨(String.ext h2).symm, Or.inl h3⟩⟩)
      · exact Or.inr (Or.inr ⟨h1.symm, Or.inl h2⟩)
    · exact Or.inr (Or.inl h1)

instance : IsTrans CostTriple costLE where
  trans a b c hab hbc := by
    unfold costLE at *
    rcases hab with h1 | ⟨e1, h1⟩
    · rcases hbc with h2 | ⟨e2, _⟩
      · exact Or.inl (h1.trans h2)
      · exact Or.inl (e2 ▸ h1)
    · rcases hbc with h2 | ⟨e2, h2⟩
      · exact Or.inl (e1 ▸ h2)
      · refine Or.inr ⟨e1.trans e2, ?_⟩
        rcases h1 with h1 | ⟨f1, h1⟩
        · rcases h2 with h2 | ⟨f2, _⟩
          · exact Or.inl (h1.trans h2)
          · exact Or.inl (f2 ▸ h1)
        · rcases h2 with h2 | ⟨f2, h2⟩
          · exact Or.inl (f1 ▸ h2)
          · refine Or.inr ⟨f1.trans f2, ?_⟩
            rcases h1 with h1 | h1
            · rcases h2 with h2 | h2
              · exact Or.inl (h1.trans h2)
              · exact Or.inl (h2 ▸ h1)
            · rcases h2 with h2 | h2
              · exact Or.inl (h1 ▸ h2)
              · exact Or.inr (h1.trans h2)

/-- the full cross-product cost list: for every manual speaker (outer loop, dict
order) and every pyannote group (inner loop, dict order) one
`(cost, manual_id, pyannote_id)` triple. -/
def costList (groups : List (String × List Segment)) : SpeakerDict → List CostTriple
  | [] => []
  | (mid, md) :: rest =>
    groups.map (fun g => (calculate_min_distance_to_speaker md.timecode g.2, mid, g.1))
      ++ costList groups rest

/-- `manual_speakers[manual_id]['name']` (total version; the matcher only looks
up ids that are keys of the dict). -/
def manualName (manual : SpeakerDict) (mid : String) : String :=
  (Option.map ManualData.name (alookup manual mid)).getD ""

/-- the mutable state of the greedy assignment loop: `mapping`, `used_manual`,
`used_pyannote` (the used-sets modeled as lists in insertion order). -/
structure GreedyState where
  mapping : List (String × String)
  usedManual : List String
  usedPyannote : List String
deriving DecidableEq

/-- the greedy one-to-one assignment loop of `map_pyannote_to_manual_speakers`:
walk the sorted cost list, commit a pair iff neither side is already used, and
stop early once every manual speaker has been mapped. -/
def greedyAssign (manual : SpeakerDict) : List CostTriple → GreedyState → GreedyState
  | [], st => st
  | (_, mid, pid) :: rest, st =>
    if mid ∉ st.usedManual ∧ pid ∉ st.usedPyannote then
      let st2 : GreedyState :=
        { mapping := st.mapping ++ [(pid, manualName manual mid)],
          usedManual := st.usedManual ++ [mid],
          usedPyannote := st.usedPyannote ++ [pid] }
      if st2.mapping.length = manual.length then st2 else greedyAssign manual rest st2
    else greedyAssign manual rest st

/-- `map_pyannote_to_manual_speakers(diarization_segments)` from `server.py`:
returns the mapping pyannote label → manual speaker name as an
insertion-ordered dict. -/
def map_pyannote_to_manual_speakers (manual : SpeakerDict) (diarizationSegments : List Segment) :
    List (String × String) :=
  if manual = [] then []
  else
    (greedyAssign manual
      (List.insertionSort costLE (costList (groupByLabel diarizationSegments) manual))
      ⟨[], [], []⟩).mapping

/-- `mapping.get(pyannote_id, pyannote_id)`: resolve a raw label through the
mapping, falling back to the raw label itself. -/
def resolveLabel (mapping : List (String × String)) (pid : String) : String :=
  (alookup mapping pid).getD pid

/-- the module-level mutable state of `server.py`. -/
structure ServerState where
  audioBuffer : List (List ℕ)
  currentDiarization : List Segment
  manualSpeakers : SpeakerDict
  speakerCounter : ℕ
deriving DecidableEq

/-- the state the module starts in. -/
def initState : ServerState := ⟨[], [], [], 0⟩

/-- `process_diarization_result(new_diarization)`: store the raw result; the
mapping is computed (for logging) and discarded, not stored. -/
def process_diarization_result (st : ServerState) (newDiarization : List Segment) : ServerState :=
  let st2 := { st with currentDiarization := newDiarization }
  let _mapping := map_pyannote_to_manual_speakers st2.manualSpeakers newDiarization
  st2

/-- `speaker_times[k] += d` with default `0`: add a duration to a key of an
insertion-ordered dict of rationals. -/
def addTime : List (String × ℚ) → String → ℚ → List (String × ℚ)
  | [], k, d => [(k, d)]
  | (p, t) :: rest, k, d =>
    if p = k then (p, t + d) :: rest else (p, t) :: addTime rest k d

/-- the `speaker_times` accumulation of `get_speakers`: per raw pyannote label,
the summed `end - start` durations, keys in first-encounter order. -/
def speakerTimes (segs : List Segment) : List (String × ℚ) :=
  segs.foldl (fun acc s => addTime acc s.speaker (s.«end» - s.start)) []

/-- one entry of the `speakers` array returned by `get_speakers`. -/
structure SpeakerEntry where
  id : String
  name : String
  time : ℚ
deriving DecidableEq

/-- the JSON payload of `GET /api/speakers`. -/
structure SpeakersOut where
  speakers : List SpeakerEntry
  totalTime : ℚ
  timeline : List Segment
deriving DecidableEq

/-- `get_speakers()` from `server.py`: with no diarization yet, list the manual
speakers with time 0; otherwise recompute the mapping, aggregate per-label
times, append unmapped manual speakers with time 0, and rewrite the timeline
through the mapping. -/
def get_speakers (st : ServerState) : SpeakersOut :=
  if st.currentDiarization = [] then
    { speakers := st.manualSpeakers.map (fun m => ⟨m.1, m.2.name, 0⟩),
      totalTime := 0,
      timeline := [] }
  else
    let mapping := map_pyannote_to_manual_speakers st.manualSpeakers st.currentDiarization
    let diarEntries : List SpeakerEntry :=
      (speakerTimes st.currentDiarization).map (fun kv => ⟨kv.1, resolveLabel mapping kv.1, kv.2⟩)
    let mappedNames := mapping.map Prod.snd
    let manualEntries : List SpeakerEntry :=
      (st.manualSpeakers.filter (fun m => decide (m.2.name ∉ mappedNames))).map
        (fun m => ⟨m.1, m.2.name, 0⟩)
    let speakers := diarEntries ++ manualEntries
    { speakers := speakers,
      totalTime := (speakers.map SpeakerEntry.time).sum,
      timeline := st.currentDiarization.map
        (fun s => { s with speaker := resolveLabel mapping s.speaker }) }

/-- the reversed decimal digits of `n`, least significant first, with explicit
structural fuel (`natToRevDigits n n` is exact for every `n`). -/
def natToRevDigits : ℕ → ℕ → List ℕ
  | 0, _ => []
  | _ + 1, 0 => []
  | fuel + 1, n + 1 => (n + 1) % 10 :: natToRevDigits fuel ((n + 1) / 10)

/-- value of a reversed (least-significant-first) decimal digit list. -/
def ofRevDigits : List ℕ → ℕ
  | [] => 0
  | d :: rest => d + 10 * ofRevDigits rest

/-- the character of a decimal digit. -/
def digitChar (d : ℕ) : Char := Char.ofNat (48 + d)

/-- the decimal digit of a character in `'0'..'9'` (0 otherwise). -/
def decDigit (c : Char) : ℕ :=
  if c = '1' then 1 else if c = '2' then 2 else if c = '3' then 3
  else if c = '4' then 4 else if c = '5' then 5 else if c = '6' then 6
  else if c = '7' then 7 else if c = '8' then 8 else if c = '9' then 9 else 0

/-- the Python f-string `f"MANUAL_{n:02d}"`: the decimal rendering of `n`
left-padded with zeros to width 2. -/
def formatSpeakerId (n : ℕ) : String :=
  let ds := (natToRevDigits n n).reverse.map digitChar
  String.mk ("MANUAL_".data ++ List.replicate (2 - ds.length) '0' ++ ds)

/-- the JSON payload of a successful `POST /api/speakers/add`. -/
structure AddSpeakerResponse where
  id : String
  name : String
  timecode : ℚ
deriving DecidableEq

/-- `add_speaker()` from `server.py`: validate name (missing or empty → 400)
and timecode (missing → 400) before touching any state; then mint
`MANUAL_{counter:02d}`, advance the counter, store the anchor (with `order` set
to the dict size before insertion) and return it. -/
def add_speaker (st : ServerState) (name : Option String) (timecode : Option ℚ) :
    ServerState × Except String AddSpeakerResponse :=
  match name with
  | none => (st, Except.error "Name is required")
  | some n =>
    if n = "" then (st, Except.error "Name is required")
    else
      match timecode with
      | none => (st, Except.error "Timecode is required")
      | some tc =>
        let sid := formatSpeakerId st.speakerCounter
        let st2 := { st with
          speakerCounter := st.speakerCounter + 1,
          manualSpeakers := dictInsert st.manualSpeakers sid ⟨n, tc, st.manualSpeakers.length⟩ }
        (st2, Except.ok ⟨sid, n, tc⟩)

/-- the JSON payload `update_speaker_name` would return on success. -/
structure RenameResponse where
  id : String
  name : String
deriving DecidableEq

/-- `update_speaker_name()` from `server.py`: the handler assigns into a global
`custom_speaker_names` that is never defined anywhere in the module, so the
assignment raises `NameError`, the `except` branch answers with the error, and
no state is touched.  (The module state has no custom-name store at all.) -/
def update_speaker_name (st : ServerState) (speakerId : String) (name : Option String) :
    ServerState × Except String RenameResponse :=
  let _ := speakerId
  let _ := name
  (st, Except.error "custom_speaker_names is not defined")

/-- `reset()` from `server.py`: empty the audio buffer, the diarization result
and the manual speakers, and restart the counter at 0. -/
def reset (st : ServerState) : ServerState :=
  let _ := st
  { audioBuffer := [], currentDiarization := [], manualSpeakers := [], speakerCounter := 0 }

/-- `add_audio()` from `server.py`: append a chunk to the audio buffer. -/
def add_audio (st : ServerState) (chunk : List ℕ) : ServerState :=
  { st with audioBuffer := st.audioBuffer ++ [chunk] }

/-- one inbound request mutating (or reading) the module state. -/
inductive Op where
  | addSpeaker (name : Option String) (timecode : Option ℚ)
  | updateSpeakerName (id : String) (name : Option String)
  | processResult (segs : List Segment)
  | addAudio (chunk : List ℕ)
  | reset
deriving DecidableEq

/-- the state after serving one request. -/
def applyOp (st : ServerState) : Op → ServerState
  | .addSpeaker n t => (add_speaker st n t).1
  | .updateSpeakerName i n => (update_speaker_name st i n).1
  | .processResult segs => process_diarization_result st segs
  | .addAudio chunk => add_audio st chunk
  | .reset => reset st

/-- the anchor ids minted by one request (one id for a successful
`add_speaker`, none otherwise). -/
def mintedOf (st : ServerState) : Op → List String
  | .addSpeaker n t =>
    match (add_speaker st n t).2 with
    | .ok r => [r.id]
    | .error _ => []
  | _ => []

/-- all anchor ids minted while serving a request sequence. -/
def runMinted : ServerState → List Op → List String
  | _, [] => []
  | st, op :: rest => mintedOf st op ++ runMinted (applyOp st op) rest

/-- a state the server can actually be in: reachable from the start state by
some request sequence. -/
def Reachable (st : ServerState) : Prop :=
  ∃ ops : List Op, st = ops.foldl applyOp initState

/-- a segment of the previous run rewritten with a minted stable identity. -/
structure StableSegment where
  speaker : ℕ
  start : ℚ
  «end» : ℚ
deriving DecidableEq

/-- Modelled from the spec: `overlap(segA, segB)` of §4.1, here on raw interval
endpoints — the temporal-overlap stabilizer described in §4.3 is not part of
`src/backend/server.py` (only the proximity matcher is), so its code is
reconstructed from the spec's words. -/
def intervalOverlap (s1 e1 s2 e2 : ℚ) : ℚ :=
  max 0 (min e1 e2 - max s1 s2)

/-- Modelled from the spec: the total overlap duration between a current-run
label group and a previous-run stable group — the sum of `overlap(newSeg,
prevSeg)` over all segment pairs in the two groups (§4.3). -/
def totalOverlap (curGroup : List Segment) (prevGroup : List StableSegment) : ℚ :=
  (curGroup.map (fun c =>
    (prevGroup.map (fun p => intervalOverlap c.start c.«end» p.start p.«end»)).sum)).sum

/-- Modelled from the spec: among the not-yet-used previous stable identities,
the one with the greatest total overlap against the given current group
(first-encountered wins ties), with its score. -/
def pickBestPrev (curGroup : List Segment) (used : List ℕ) :
    List (ℕ × List StableSegment) → Option (ℕ × ℚ)
  | [] => none
  | (pid, pg) :: rest =>
    if pid ∈ used then pickBestPrev curGroup used rest
    else
      match pickBestPrev curGroup used rest with
      | none => some (pid, totalOverlap curGroup pg)
      | some (bid, bs) =>
        if totalOverlap curGroup pg < bs then some (bid, bs)
        else some (pid, totalOverlap curGroup pg)

/-- Modelled from the spec: the per-label greedy commitment loop of the overlap
stabilizer (§4.3) — walk the current-run label groups in first-encounter order;
commit the best-available previous identity when its total overlap is strictly
positive, else mint a fresh sequential stable id. -/
def stabilizeStep (counter : ℕ) (used : List ℕ) (mapping : List (String × ℕ))
    (prevGroups : List (ℕ × List StableSegment)) :
    List (String × List Segment) → List (String × ℕ) × ℕ
  | [] => (mapping, counter)
  | (lbl, g) :: rest =>
    match pickBestPrev g used prevGroups with
    | some (bid, bs) =>
      if 0 < bs then
        stabilizeStep counter (used ++ [bid]) (mapping ++ [(lbl, bid)]) prevGroups rest
      else
        stabilizeStep (counter + 1) used (mapping ++ [(lbl, counter)]) prevGroups rest
    | none => stabilizeStep (counter + 1) used (mapping ++ [(lbl, counter)]) prevGroups rest

/-- Modelled from the spec: the temporal-overlap stabilizer (§4.3) — mapping
current raw labels to stable identities given the previous run's stabilized
segments and the session's sequential id counter; with an empty previous
history every group falls into the minting branch (the bootstrap case). -/
def stabilize_speakers (previous : List StableSegment) (current : List Segment) (counter : ℕ) :
    List (String × ℕ) × ℕ :=
  stabilizeStep counter [] [] (groupByKey StableSegment.speaker previous)
    (groupByKey Segment.speaker current)

/-- the total speaking time `get_speakers` reports for one resolved identity:
the summed `time` of every returned speaker entry carrying that display name. -/
def reportedTimeFor (out : SpeakersOut) (idn : String) : ℚ :=
  ((out.speakers.filter (fun e => decide (e.name = idn))).map SpeakerEntry.time).sum

/-- the speaking time the spec prescribes for one resolved identity: the summed
`end - start` over every segment whose mapped identity is that identity. -/
def segTimeFor (segs : List Segment) (mapping : List (String × String)) (idn : String) : ℚ :=
  ((segs.filter (fun s => decide (resolveLabel mapping s.speaker = idn))).map
    (fun s => s.«end» - s.start)).sum

theorem alookup_append_left {α : Type} {l1 : List (String × α)} (l2 : List (String × α))
    {k : String} {v : α} (h : alookup l1 k = some v) : alookup (l1 ++ l2) k = some v := by
  induction l1 with
  | nil => simp [alookup] at h
  | cons p rest ih =>
    obtain ⟨pk, pv⟩ := p
    rw [List.cons_append]
    simp only [alookup] at h ⊢
    by_cases hk : pk = k
    · rw [if_pos hk] at h ⊢
      exact h
    · rw [if_neg hk] at h ⊢
      exact ih h

theorem alookup_append_right {α : Type} {l1 : List (String × α)} (l2 : List (String × α))
    {k : String} (h : alookup l1 k = none) : alookup (l1 ++ l2) k = alookup l2 k := by
  induction l1 with
  | nil => simp
  | cons p rest ih =>
    obtain ⟨pk, pv⟩ := p
    rw [List.cons_append]
    simp only [alookup] at h ⊢
    by_cases hk : pk = k
    · rw [if_pos hk] at h
      exact absurd h (by simp)
    · rw [if_neg hk] at h ⊢
      exact ih h

theorem alookup_eq_none_iff {α : Type} (l : List (String × α)) (k : String) :
    alookup l k = none ↔ k ∉ l.map Prod.fst := by
  induction l with
  | nil => simp [alookup]
  | cons p rest ih =>
    unfold alookup
    by_cases h : p.1 = k
    · simp [h]
    · simp [h, ih, Ne.symm h]

theorem alookup_mem {α : Type} {l : List (String × α)} {k : String} {v : α}
    (hmem : (k, v) ∈ l) (hnd : (l.map Prod.fst).Nodup) : alookup l k = some v := by
  induction l with
  | nil => simp at hmem
  | cons p rest ih =>
    simp only [List.map_cons, List.nodup_cons] at hnd
    rcases List.mem_cons.1 hmem with h | h
    · subst h
      simp [alookup]
    · have hk : p.1 ≠ k := by
        intro e
        exact hnd.1 (e ▸ List.mem_map_of_mem Prod.fst h)
      unfold alookup
      rw [if_neg hk]
      exact ih h hnd.2

theorem dictInsert_of_not_mem {α : Type} {l : List (String × α)} {k : String} (v : α)
    (h : k ∉ l.map Prod.fst) : dictInsert l k v = l ++ [(k, v)] := by
  induction l with
  | nil => rfl
  | cons p rest ih =>
    obtain ⟨pk, pv⟩ := p
    simp only [List.map_cons, List.mem_cons, not_or] at h
    simp only [dictInsert]
    rw [if_neg (fun e => h.1 e.symm), ih h.2, List.cons_append]

theorem ofRevDigits_natToRevDigits : ∀ fuel n, n ≤ fuel → ofRevDigits (natToRevDigits fuel n) = n := by
  intro fuel
  induction fuel with
  | zero =>
    intro n hn
    interval_cases n
    rfl
  | succ fuel ih =>
    intro n hn
    match n with
    | 0 => rfl
    | m + 1 =>
      have hdiv : (m + 1) / 10 ≤ fuel := by
        have h1 : (m + 1) / 10 < m + 1 := Nat.div_lt_self (Nat.succ_pos m) (by norm_num)
        omega
      unfold natToRevDigits ofRevDigits
      rw [ih _ hdiv]
      omega

theorem natToRevDigits_lt_ten : ∀ fuel n d, d ∈ natToRevDigits fuel n → d < 10 := by
  intro fuel
  induction fuel with
  | zero => intro n d h; simp [natToRevDigits] at h
  | succ fuel ih =>
    intro n d h
    match n with
    | 0 => simp [natToRevDigits] at h
    | m + 1 =>
      unfold natToRevDigits at h
      rcases List.mem_cons.1 h with h | h
      · subst h; exact Nat.mod_lt _ (by norm_num)
      · exact ih _ _ h

theorem decDigit_digitChar : ∀ d, d < 10 → decDigit (digitChar d) = d := by decide

theorem ofRevDigits_replicate_zero : ∀ k, ofRevDigits (List.replicate k 0) = 0 := by
  intro k
  induction k with
  | zero => rfl
  | succ k ih => simpa [List.replicate, ofRevDigits] using ih

theorem ofRevDigits_append_zeros : ∀ (l : List ℕ) (k : ℕ),
    ofRevDigits (l ++ List.replicate k 0) = ofRevDigits l := by
  intro l
  induction l with
  | nil => simpa using ofRevDigits_replicate_zero
  | cons d rest ih => intro k; simp [ofRevDigits, ih]

theorem formatSpeakerId_decode (k : ℕ) :
    ofRevDigits (((List.replicate (2 - ((natToRevDigits k k).reverse.map digitChar).length) '0'
      ++ (natToRevDigits k k).reverse.map digitChar).reverse).map decDigit) = k := by
  rw [List.reverse_append, List.reverse_replicate]
  have h1 : ((natToRevDigits k k).reverse.map digitChar).reverse
      = (natToRevDigits k k).map digitChar := by
    rw [← List.map_reverse, List.reverse_reverse]
  rw [h1, List.map_append, List.map_map, List.map_replicate]
  have h2 : (natToRevDigits k k).map (decDigit ∘ digitChar) = natToRevDigits k k := by
    conv_rhs => rw [← List.map_id (natToRevDigits k k)]
    refine List.map_congr_left ?_
    intro d hd
    simp only [Function.comp_apply, id_eq]
    exact decDigit_digitChar d (natToRevDigits_lt_ten k k d hd)
  have h3 : decDigit '0' = 0 := by decide
  rw [h2, h3, ofRevDigits_append_zeros]
  exact ofRevDigits_natToRevDigits k k le_rfl

theorem formatSpeakerId_injective : Function.Injective formatSpeakerId := by
  intro m n h
  have hdata : List.replicate (2 - ((natToRevDigits m m).reverse.map digitChar).length) '0'
        ++ (natToRevDigits m m).reverse.map digitChar
      = List.replicate (2 - ((natToRevDigits n n).reverse.map digitChar).length) '0'
        ++ (natToRevDigits n n).reverse.map digitChar := by
    have h2 := h
    simp only [formatSpeakerId, String.ext_iff] at h2
    rw [List.append_assoc, List.append_assoc] at h2
    have hlen : (['M', 'A', 'N', 'U', 'A', 'L', '_'] : List Char).length = 7 := by decide
    have h3 := congrArg (List.drop 7) h2
    rw [← hlen] at h3
    rwa [List.drop_left, List.drop_left] at h3
  have hm := formatSpeakerId_decode m
  rw [hdata] at hm
  exact hm.symm.trans (formatSpeakerId_decode n)

/-- Claim C8: `calculate_min_distance_to_speaker(timecode, segments)` returns 0
when the timecode falls within some segment, otherwise the minimum over the
group of `min(|timecode - start|, |timecode - end|)`, and `+infinity` for an
empty group — stated as equality with the spec's `distanceToGroup`, for
segments satisfying the data model's `start ≤ end` invariant. -/
theorem c8_distance_matches_spec (t : ℚ) (segs : List Segment)
    (hwf : ∀ s ∈ segs, s.start ≤ s.«end») :
    calculate_min_distance_to_speaker t segs = specDistanceToGroup t segs := by
  have segDist_eq : ∀ s : Segment, s.start ≤ s.«end» → ¬(s.start ≤ t ∧ t ≤ s.«end») →
      segmentDistance t s = min |t - s.start| |t - s.«end»| := by
    intro s hse hout
    unfold segmentDistance
    by_cases hlt : t < s.start
    · rw [if_pos hlt]
      have h1 : |t - s.start| = s.start - t := by
        rw [abs_of_neg (by linarith)]; ring
      have h2 : |t - s.«end»| = s.«end» - t := by
        rw [abs_of_neg (by linarith)]; ring
      rw [h1, h2, min_eq_left (by linarith)]
    · rw [if_neg hlt]
      push_neg at hlt hout
      have hend : s.«end» < t := hout hlt
      have h1 : |t - s.start| = t - s.start := abs_of_nonneg (by linarith)
      have h2 : |t - s.«end»| = t - s.«end»  := abs_of_nonneg (by linarith)
      rw [h1, h2, min_eq_right (by linarith)]
  have aux : ∀ (l : List Segment), (∀ s ∈ l, s.start ≤ s.«end») → ∀ acc : WithTop ℚ,
      minDistanceAux t acc l =
        if ∃ s ∈ l, s.start ≤ t ∧ t ≤ s.«end» then 0
        else min acc ((l.map (fun s => ((min |t - s.start| |t - s.«end»| : ℚ) : WithTop ℚ))).foldr min ⊤) := by
    intro l
    induction l with
    | nil =>
      intro _ acc
      simp [minDistanceAux, min_eq_left (le_top : acc ≤ ⊤)]
    | cons s rest ih =>
      intro hwf2 acc
      by_cases hin : s.start ≤ t ∧ t ≤ s.«end»
      · rw [if_pos ⟨s, List.mem_cons_self s rest, hin⟩]
        unfold minDistanceAux
        rw [if_pos hin]
      · have hrest : ∀ u ∈ rest, u.start ≤ u.«end» := fun u hu => hwf2 u (List.mem_cons_of_mem s hu)
        unfold minDistanceAux
        rw [if_neg hin, ih hrest _]
        by_cases hex : ∃ u ∈ rest, u.start ≤ t ∧ t ≤ u.«end»
        · rw [if_pos hex, if_pos]
          rcases hex with ⟨u, hu, hcond⟩
          exact ⟨u, List.mem_cons_of_mem s hu, hcond⟩
        · rw [if_neg hex, if_neg]
          · rw [List.map_cons, List.foldr_cons,
              segDist_eq s (hwf2 s (List.mem_cons_self s rest)) hin, ← min_assoc,
              min_comm acc, min_assoc]
          · intro hcon
            rcases hcon with ⟨u, hu, hcond⟩
            rcases List.mem_cons.1 hu with h | h
            · exact hin (h ▸ hcond)
            · exact hex ⟨u, h, hcond⟩
  unfold calculate_min_distance_to_speaker specDistanceToGroup
  rw [aux segs hwf ⊤]
  by_cases h : ∃ s ∈ segs, s.start ≤ t ∧ t ≤ s.«end»
  · rw [if_pos h, if_pos]
    rw [List.any_eq_true]
    rcases h with ⟨s, hs, hcond⟩
    exact ⟨s, hs, by simpa using hcond⟩
  · rw [if_neg h, if_neg, min_eq_right le_top]
    rw [List.any_eq_true]
    intro hcon
    rcases hcon with ⟨s, hs, hcond⟩
    exact h ⟨s, hs, by simpa using hcond⟩

/-- Witness for C8 at a concrete input: timecode 3 against the two segments
`[0,2]` and `[5,9]` (distance `min(1, 2) = 1`). -/
theorem c8_witness :
    (∀ s ∈ ([⟨"SPEAKER_00", 0, 2⟩, ⟨"SPEAKER_01", 5, 9⟩] : List Segment), s.start ≤ s.«end») ∧
    calculate_min_distance_to_speaker 3 [⟨"SPEAKER_00", 0, 2⟩, ⟨"SPEAKER_01", 5, 9⟩]
      = specDistanceToGroup 3 [⟨"SPEAKER_00", 0, 2⟩, ⟨"SPEAKER_01", 5, 9⟩] :=
  ⟨by with_unfolding_all decide,
   c8_distance_matches_spec 3 _ (by with_unfolding_all decide)⟩

/-- Claim C5 (code bug): `update_speaker_name` can never apply a display-name
override — the handler always fails with the `NameError` on the undefined
global `custom_speaker_names`, leaves the state untouched, and `get_speakers`
never consults any custom-name store: after adding "Alice" and attempting to
rename her to "Bob", the reported name is still "Alice". -/
theorem c5_rename_never_applies :
    (∀ (st : ServerState) (sid : String) (nm : Option String),
      update_speaker_name st sid nm
        = (st, Except.error "custom_speaker_names is not defined")) ∧
    (get_speakers (update_speaker_name ((add_speaker initState (some "Alice") (some 0)).1)
        "MANUAL_00" (some "Bob")).1).speakers.map SpeakerEntry.name = ["Alice"] :=
  ⟨fun _ _ _ => rfl, by with_unfolding_all decide⟩

/-- Claim C6: `reset()` restores the whole module state to the start state in
one assignment block (anchors, diarization history, audio buffer and counter
all cleared together), and `get_speakers()` afterwards reports no speakers,
zero total time and an empty timeline. -/
theorem c6_reset_complete (st : ServerState) :
    reset st = initState ∧ get_speakers (reset st) = ⟨[], 0, []⟩ :=
  ⟨rfl, rfl⟩

/-- Claim C10: `process_diarization_result` only stores the raw segments — the
mapping it computes is discarded — and `get_speakers` recomputes the mapping
from the anchors registered at query time: adding an anchor after a result was
stored changes the names and timeline reported for that same stored result,
with no new diarization submission. -/
theorem c10_mapping_recomputed_at_query_time :
    (∀ (st : ServerState) (segs : List Segment),
      process_diarization_result st segs = { st with currentDiarization := segs }) ∧
    (add_speaker (process_diarization_result initState [⟨"SPEAKER_00", 0, 5⟩])
        (some "Alice") (some 2)).1.currentDiarization
      = (process_diarization_result initState [⟨"SPEAKER_00", 0, 5⟩]).currentDiarization ∧
    (get_speakers (process_diarization_result initState [⟨"SPEAKER_00", 0, 5⟩])).speakers.map
        SpeakerEntry.name = ["SPEAKER_00"] ∧
    (get_speakers ((add_speaker (process_diarization_result initState [⟨"SPEAKER_00", 0, 5⟩])
        (some "Alice") (some 2)).1)).speakers.map SpeakerEntry.name = ["Alice"] ∧
    (get_speakers ((add_speaker (process_diarization_result initState [⟨"SPEAKER_00", 0, 5⟩])
        (some "Alice") (some 2)).1)).timeline = [⟨"Alice", 0, 5⟩] :=
  ⟨fun _ _ => rfl, by with_unfolding_all decide, by with_unfolding_all decide,
   by with_unfolding_all decide, by with_unfolding_all decide⟩

theorem addTime_filter_sum (mapping : List (String × String)) (idn k : String) (d : ℚ)
    (acc : List (String × ℚ)) :
    (((addTime acc k d).filter (fun kv => decide (resolveLabel mapping kv.1 = idn))).map
        Prod.snd).sum
      = ((acc.filter (fun kv => decide (resolveLabel mapping kv.1 = idn))).map Prod.snd).sum
        + (if resolveLabel mapping k = idn then d else 0) := by
  induction acc with
  | nil =>
    by_cases hk : resolveLabel mapping k = idn
    · simp [addTime, List.filter_cons, hk]
    · simp [addTime, List.filter_cons, hk]
  | cons p rest ih =>
    obtain ⟨pk, pt⟩ := p
    simp only [addTime]
    by_cases hpk : pk = k
    · subst hpk
      by_cases hres : resolveLabel mapping pk = idn
      · simp [List.filter_cons, hres]
        ring
      · simp [List.filter_cons, hres]
    · rw [if_neg hpk]
      by_cases hres : resolveLabel mapping pk = idn
      · simp only [List.filter_cons, hres, decide_True, if_true, List.map_cons, List.sum_cons, ih]
        ring
      · simp only [List.filter_cons, hres, decide_False, Bool.false_eq_true, if_false, ih]

theorem segTimeFor_cons (s : Segment) (rest : List Segment) (mapping : List (String × String))
    (idn : String) :
    segTimeFor (s :: rest) mapping idn
      = (if resolveLabel mapping s.speaker = idn then s.«end» - s.start else 0)
        + segTimeFor rest mapping idn := by
  by_cases hres : resolveLabel mapping s.speaker = idn
  · simp [segTimeFor, List.filter_cons, hres]
  · simp [segTimeFor, List.filter_cons, hres]

theorem speakerTimes_filter_sum (mapping : List (String × String)) (idn : String)
    (segs : List Segment) : ∀ acc : List (String × ℚ),
    (((segs.foldl (fun a s => addTime a s.speaker (s.«end» - s.start)) acc).filter
        (fun kv => decide (resolveLabel mapping kv.1 = idn))).map Prod.snd).sum
      = ((acc.filter (fun kv => decide (resolveLabel mapping kv.1 = idn))).map Prod.snd).sum
        + segTimeFor segs mapping idn := by
  induction segs with
  | nil => intro acc; simp [segTimeFor]
  | cons s rest ih =>
    intro acc
    rw [List.foldl_cons, ih, addTime_filter_sum, segTimeFor_cons]
    ring

theorem sum_filter_map_zero_time {α : Type} (l : List α) (f : α → SpeakerEntry) (idn : String)
    (hf : ∀ a, (f a).time = 0) :
    (((l.map f).filter (fun e => decide (e.name = idn))).map SpeakerEntry.time).sum = 0 := by
  induction l with
  | nil => rfl
  | cons a rest ih =>
    rw [List.map_cons, List.filter_cons]
    by_cases hres : (f a).name = idn
    · simp [hres, hf a, ih]
    · simp [hres, ih]

/-- Claim C2: for every resolved identity, the speaking time `get_speakers`
reports for it (the summed `time` of its returned entries) equals exactly the
sum of `end - start` over every stored segment whose mapped identity is that
identity, with the mapping recomputed from the current anchors — for every
server state and every identity. -/
theorem c2_aggregation_correct (st : ServerState) (idn : String) :
    reportedTimeFor (get_speakers st) idn
      = segTimeFor st.currentDiarization
          (map_pyannote_to_manual_speakers st.manualSpeakers st.currentDiarization) idn := by
  simp only [reportedTimeFor, get_speakers]
  by_cases hd : st.currentDiarization = []
  · rw [if_pos hd, hd]
    have hz := sum_filter_map_zero_time st.manualSpeakers
      (fun m => (⟨m.1, m.2.name, 0⟩ : SpeakerEntry)) idn (fun _ => rfl)
    simpa [segTimeFor] using hz
  · rw [if_neg hd]
    simp only [List.filter_append, List.map_append, List.sum_append]
    have hz := sum_filter_map_zero_time
      (st.manualSpeakers.filter
        (fun m => decide (m.2.name ∉ (map_pyannote_to_manual_speakers st.manualSpeakers
          st.currentDiarization).map Prod.snd)))
      (fun m => (⟨m.1, m.2.name, 0⟩ : SpeakerEntry)) idn (fun _ => rfl)
    rw [hz, add_zero, List.filter_map, List.map_map]
    have hfun : (SpeakerEntry.time ∘ fun kv : String × ℚ =>
        (⟨kv.1, resolveLabel (map_pyannote_to_manual_speakers st.manualSpeakers
          st.currentDiarization) kv.1, kv.2⟩ : SpeakerEntry)) = Prod.snd := rfl
    have hcomp : ((fun e : SpeakerEntry => decide (e.name = idn)) ∘ fun kv : String × ℚ =>
        (⟨kv.1, resolveLabel (map_pyannote_to_manual_speakers st.manualSpeakers
          st.currentDiarization) kv.1, kv.2⟩ : SpeakerEntry))
        = fun kv : String × ℚ => decide (resolveLabel (map_pyannote_to_manual_speakers
          st.manualSpeakers st.currentDiarization) kv.1 = idn) := rfl
    rw [hfun, hcomp]
    have := speakerTimes_filter_sum (map_pyannote_to_manual_speakers st.manualSpeakers
      st.currentDiarization) idn st.currentDiarization []
    simpa [speakerTimes] using this

theorem nodup_append_single {α : Type} {l : List α} {a : α} (h : l.Nodup) (ha : a ∉ l) :
    (l ++ [a]).Nodup := by
  have hperm : List.Perm (l ++ [a]) (a :: l) := List.perm_append_singleton a l
  exact hperm.nodup_iff.2 (List.nodup_cons.2 ⟨ha, h⟩)

theorem mem_costList_iff (groups : List (String × List Segment)) (manual : SpeakerDict)
    (T : CostTriple) :
    T ∈ costList groups manual ↔ ∃ m ∈ manual, ∃ g ∈ groups,
      T = (calculate_min_distance_to_speaker m.2.timecode g.2, m.1, g.1) := by
  induction manual with
  | nil => simp [costList]
  | cons m rest ih =>
    obtain ⟨mid, md⟩ := m
    simp only [costList, List.mem_append, List.mem_map, ih, List.mem_cons]
    constructor
    · rintro (⟨g, hg, rfl⟩ | ⟨m2, hm2, g, hg, rfl⟩)
      · exact ⟨(mid, md), Or.inl rfl, g, hg, rfl⟩
      · exact ⟨m2, Or.inr hm2, g, hg, rfl⟩
    · rintro ⟨m2, hm2 | hm2, g, hg, rfl⟩
      · subst hm2
        exact Or.inl ⟨g, hg, rfl⟩
      · exact Or.inr ⟨m2, hm2, g, hg, rfl⟩

theorem costList_mid_mem {groups : List (String × List Segment)} {manual : SpeakerDict}
    {T : CostTriple} (h : T ∈ costList groups manual) : T.2.1 ∈ manual.map Prod.fst := by
  rcases (mem_costList_iff groups manual T).1 h with ⟨m, hm, g, _, rfl⟩
  exact List.mem_map_of_mem Prod.fst hm

theorem greedyAssign_inv (manual : SpeakerDict) (l : List CostTriple) (st : GreedyState)
    (h1 : st.usedPyannote = st.mapping.map Prod.fst)
    (h2 : st.usedPyannote.Nodup)
    (h3 : st.usedManual.Nodup)
    (h4 : st.mapping.map Prod.snd = st.usedManual.map (manualName manual))
    (h5 : ∀ x ∈ st.usedManual, x ∈ manual.map Prod.fst)
    (hl : ∀ T ∈ l, T.2.1 ∈ manual.map Prod.fst) :
    (greedyAssign manual l st).usedPyannote = (greedyAssign manual l st).mapping.map Prod.fst
    ∧ (greedyAssign manual l st).usedPyannote.Nodup
    ∧ (greedyAssign manual l st).usedManual.Nodup
    ∧ (greedyAssign manual l st).mapping.map Prod.snd
        = (greedyAssign manual l st).usedManual.map (manualName manual)
    ∧ (∀ x ∈ (greedyAssign manual l st).usedManual, x ∈ manual.map Prod.fst) := by
  induction l generalizing st with
  | nil => exact ⟨h1, h2, h3, h4, h5⟩
  | cons T rest ih =>
    obtain ⟨c, mid, pid⟩ := T
    have hmid : mid ∈ manual.map Prod.fst := hl (c, mid, pid) (List.mem_cons_self _ _)
    have hrest : ∀ T ∈ rest, T.2.1 ∈ manual.map Prod.fst :=
      fun T hT => hl T (List.mem_cons_of_mem _ hT)
    simp only [greedyAssign]
    by_cases hguard : mid ∉ st.usedManual ∧ pid ∉ st.usedPyannote
    · rw [if_pos hguard]
      have k1 : (st.usedPyannote ++ [pid]) = (st.mapping ++ [(pid, manualName manual mid)]).map Prod.fst := by
        rw [List.map_append, h1]
        rfl
      have k2 : (st.usedPyannote ++ [pid]).Nodup := nodup_append_single h2 hguard.2
      have k3 : (st.usedManual ++ [mid]).Nodup := nodup_append_single h3 hguard.1
      have k4 : (st.mapping ++ [(pid, manualName manual mid)]).map Prod.snd
          = (st.usedManual ++ [mid]).map (manualName manual) := by
        rw [List.map_append, List.map_append, h4]
        rfl
      have k5 : ∀ x ∈ st.usedManual ++ [mid], x ∈ manual.map Prod.fst := by
        intro x hx
        rcases List.mem_append.1 hx with hx | hx
        · exact h5 x hx
        · rw [List.mem_singleton.1 hx]
          exact hmid
      by_cases hbreak : st.mapping.length + 1 = manual.length
      · rw [if_pos (by simpa using hbreak)]
        exact ⟨k1, k2, k3, k4, k5⟩
      · rw [if_neg (by simpa using hbreak)]
        exact ih _ k1 k2 k3 k4 k5 hrest
    · rw [if_neg hguard]
      exact ih _ h1 h2 h3 h4 h5 hrest

theorem manualName_inj_on (manual : SpeakerDict)
    (hkeys : (manual.map Prod.fst).Nodup)
    (hnames : List.Pairwise (fun a b : String × ManualData => a.2.name ≠ b.2.name) manual)
    {a b : String} (ha : a ∈ manual.map Prod.fst) (hb : b ∈ manual.map Prod.fst)
    (h : manualName manual a = manualName manual b) : a = b := by
  rcases List.mem_map.1 ha with ⟨pa, hpa, hpa1⟩
  rcases List.mem_map.1 hb with ⟨pb, hpb, hpb1⟩
  subst hpa1
  subst hpb1
  by_contra hne
  have hpair : pa ≠ pb := fun e => hne (congrArg Prod.fst e)
  have hsym : Symmetric (fun a b : String × ManualData => a.2.name ≠ b.2.name) :=
    fun x y hxy => hxy.symm
  have hnn : pa.2.name ≠ pb.2.name := hnames.forall hsym hpa hpb hpair
  have la : alookup manual pa.1 = some pa.2 := alookup_mem (by simpa using hpa) hkeys
  have lb : alookup manual pb.1 = some pb.2 := alookup_mem (by simpa using hpb) hkeys
  rw [manualName, manualName, la, lb] at h
  exact hnn h

/-- Claim C1 (amended): for every input, the mapping produced by the proximity
matcher never assigns one raw label to two identities (its keys are pairwise
distinct, unconditionally); and provided the registered anchors carry pairwise
distinct display names, it also never assigns two distinct raw labels to the
same resolved identity (its values are pairwise distinct). -/
theorem c1_mapping_injective (manual : SpeakerDict) (segs : List Segment) :
    ((map_pyannote_to_manual_speakers manual segs).map Prod.fst).Nodup
    ∧ ((manual.map Prod.fst).Nodup →
        List.Pairwise (fun a b : String × ManualData => a.2.name ≠ b.2.name) manual →
        ((map_pyannote_to_manual_speakers manual segs).map Prod.snd).Nodup) := by
  unfold map_pyannote_to_manual_speakers
  by_cases hempty : manual = []
  · rw [if_pos hempty]
    exact ⟨List.nodup_nil, fun _ _ => List.nodup_nil⟩
  · rw [if_neg hempty]
    have hinv := greedyAssign_inv manual
      (List.insertionSort costLE (costList (groupByLabel segs) manual)) ⟨[], [], []⟩
      rfl List.nodup_nil List.nodup_nil rfl (by simp)
      (fun T hT => costList_mid_mem ((List.perm_insertionSort costLE _).mem_iff.1 hT))
    obtain ⟨k1, k2, k3, k4, k5⟩ := hinv
    constructor
    · rw [← k1]
      exact k2
    · intro hkeys hnames
      rw [k4]
      refine List.Nodup.map_on ?_ k3
      intro x hx y hy hxy
      exact manualName_inj_on manual hkeys hnames (k5 x hx) (k5 y hy) hxy

/-- Witness for C1 at the spec's own example: anchors Alice@2 and Bob@10
against raw groups `SPEAKER_00 = [0,5]` and `SPEAKER_01 = [5,12]`; the
distinct-names side conditions of the second conjunct are discharged
concretely. -/
theorem c1_witness :
    ((([("MANUAL_00", ⟨"Alice", 2, 0⟩), ("MANUAL_01", ⟨"Bob", 10, 1⟩)] : SpeakerDict).map
        Prod.fst).Nodup
      ∧ List.Pairwise (fun a b : String × ManualData => a.2.name ≠ b.2.name)
          [("MANUAL_00", ⟨"Alice", 2, 0⟩), ("MANUAL_01", ⟨"Bob", 10, 1⟩)])
    ∧ ((map_pyannote_to_manual_speakers
          [("MANUAL_00", ⟨"Alice", 2, 0⟩), ("MANUAL_01", ⟨"Bob", 10, 1⟩)]
          [⟨"SPEAKER_00", 0, 5⟩, ⟨"SPEAKER_01", 5, 12⟩]).map Prod.fst).Nodup
      ∧ ((map_pyannote_to_manual_speakers
          [("MANUAL_00", ⟨"Alice", 2, 0⟩), ("MANUAL_01", ⟨"Bob", 10, 1⟩)]
          [⟨"SPEAKER_00", 0, 5⟩, ⟨"SPEAKER_01", 5, 12⟩]).map Prod.snd).Nodup :=
  ⟨⟨by decide, by decide⟩,
   (c1_mapping_injective
     [("MANUAL_00", ⟨"Alice", 2, 0⟩), ("MANUAL_01", ⟨"Bob", 10, 1⟩)]
     [⟨"SPEAKER_00", 0, 5⟩, ⟨"SPEAKER_01", 5, 12⟩]).1,
   (c1_mapping_injective
     [("MANUAL_00", ⟨"Alice", 2, 0⟩), ("MANUAL_01", ⟨"Bob", 10, 1⟩)]
     [⟨"SPEAKER_00", 0, 5⟩, ⟨"SPEAKER_01", 5, 12⟩]).2 (by decide) (by decide)⟩

/-- Counterexample for C1 as originally stated: with two anchors that share the
display name "Alice" (at timecodes 1 and 11) and raw groups `SPEAKER_00 =
[0,2]`, `SPEAKER_01 = [10,12]`, the matcher assigns both distinct raw labels to
the same resolved identity "Alice" — the produced mapping is not injective. -/
theorem c1_counterexample :
    map_pyannote_to_manual_speakers
        [("MANUAL_00", ⟨"Alice", 1, 0⟩), ("MANUAL_01", ⟨"Alice", 11, 1⟩)]
        [⟨"SPEAKER_00", 0, 2⟩, ⟨"SPEAKER_01", 10, 12⟩]
      = [("SPEAKER_00", "Alice"), ("SPEAKER_01", "Alice")]
    ∧ ¬ ((map_pyannote_to_manual_speakers
        [("MANUAL_00", ⟨"Alice", 1, 0⟩), ("MANUAL_01", ⟨"Alice", 11, 1⟩)]
        [⟨"SPEAKER_00", 0, 2⟩, ⟨"SPEAKER_01", 10, 12⟩]).map Prod.snd).Nodup := by
  constructor
  · with_unfolding_all decide
  · with_unfolding_all decide

theorem insertByKey_keys {κ α : Type} [DecidableEq κ] (key : α → κ)
    (acc : List (κ × List α)) (a : α) :
    (insertByKey key acc a).map Prod.fst
      = if key a ∈ acc.map Prod.fst then acc.map Prod.fst
        else acc.map Prod.fst ++ [key a] := by
  induction acc with
  | nil => simp [insertByKey]
  | cons p rest ih =>
    obtain ⟨k, g⟩ := p
    simp only [insertByKey]
    by_cases hk : k = key a
    · simp [hk]
    · by_cases hmem : key a ∈ rest.map Prod.fst
      · simp [hk, Ne.symm hk, hmem, ih]
      · simp [hk, Ne.symm hk, hmem, ih]

theorem groupByKey_keys_nodup {κ α : Type} [DecidableEq κ] (key : α → κ) (l : List α) :
    ((groupByKey key l).map Prod.fst).Nodup := by
  suffices h : ∀ acc : List (κ × List α), (acc.map Prod.fst).Nodup →
      ((l.foldl (insertByKey key) acc).map Prod.fst).Nodup from h [] List.nodup_nil
  induction l with
  | nil => exact fun acc h => h
  | cons a rest ih =>
    intro acc hacc
    rw [List.foldl_cons]
    refine ih _ ?_
    rw [insertByKey_keys]
    by_cases hmem : key a ∈ acc.map Prod.fst
    · rwa [if_pos hmem]
    · rw [if_neg hmem]
      exact nodup_append_single hacc hmem

theorem greedyAssign_lookup_mono (manual : SpeakerDict) (l : List CostTriple) (st : GreedyState)
    {p v : String} (h : alookup st.mapping p = some v) :
    alookup (greedyAssign manual l st).mapping p = some v := by
  induction l generalizing st with
  | nil => exact h
  | cons T rest ih =>
    obtain ⟨c, mid, pid⟩ := T
    simp only [greedyAssign]
    by_cases hguard : mid ∉ st.usedManual ∧ pid ∉ st.usedPyannote
    · rw [if_pos hguard]
      have h2 : alookup (st.mapping ++ [(pid, manualName manual mid)]) p = some v :=
        alookup_append_left _ h
      by_cases hbreak : (st.mapping ++ [(pid, manualName manual mid)]).length = manual.length
      · rw [if_pos (by simpa using hbreak)]
        exact h2
      · rw [if_neg (by simpa using hbreak)]
        exact ih _ h2
    · rw [if_neg hguard]
      exact ih _ h

theorem greedyAssign_commits (manual : SpeakerDict) (c : WithTop ℚ) (mid pid : String) :
    ∀ (l : List CostTriple) (st : GreedyState),
    List.Sorted costLE l →
    (c, mid, pid) ∈ l →
    (∀ T ∈ l, T ≠ (c, mid, pid) → T.2.1 = mid ∨ T.2.2 = pid → ¬ costLE T (c, mid, pid)) →
    (∀ T ∈ l, T.2.1 ∈ manual.map Prod.fst) →
    (manual.map Prod.fst).Nodup →
    mid ∉ st.usedManual →
    pid ∉ st.usedPyannote →
    st.mapping.length = st.usedManual.length →
    st.usedManual.Nodup →
    (∀ x ∈ st.usedManual, x ∈ manual.map Prod.fst) →
    alookup st.mapping pid = none →
    alookup (greedyAssign manual l st).mapping pid = some (manualName manual mid) := by
  intro l
  induction l with
  | nil =>
    intro st _ hmem
    exact absurd hmem (List.not_mem_nil _)
  | cons T rest ih =>
    intro st hsort hmem hconf hl hkeys hM hP hlen hndM hsubM hlook
    obtain ⟨c2, mid2, pid2⟩ := T
    have hmidkeys : mid ∈ manual.map Prod.fst := hl (c, mid, pid) hmem
    have hrestl : ∀ T ∈ rest, T.2.1 ∈ manual.map Prod.fst :=
      fun T hT => hl T (List.mem_cons_of_mem _ hT)
    have hrestconf : ∀ T ∈ rest, T ≠ (c, mid, pid) → T.2.1 = mid ∨ T.2.2 = pid →
        ¬ costLE T (c, mid, pid) :=
      fun T hT => hconf T (List.mem_cons_of_mem _ hT)
    have hrestsort : List.Sorted costLE rest := (List.sorted_cons.1 hsort).2
    simp only [greedyAssign]
    by_cases hTeq : ((c2, mid2, pid2) : CostTriple) = (c, mid, pid)
    · have hmid2 : mid2 = mid := congrArg (fun x : CostTriple => x.2.1) hTeq
      have hpid2 : pid2 = pid := congrArg (fun x : CostTriple => x.2.2) hTeq
      rw [hmid2, hpid2]
      rw [if_pos ⟨hM, hP⟩]
      have hlook2 : alookup (st.mapping ++ [(pid, manualName manual mid)]) pid
          = some (manualName manual mid) := by
        rw [alookup_append_right _ hlook]
        simp [alookup]
      by_cases hbreak : (st.mapping ++ [(pid, manualName manual mid)]).length = manual.length
      · rw [if_pos (by simpa using hbreak)]
        exact hlook2
      · rw [if_neg (by simpa using hbreak)]
        exact greedyAssign_lookup_mono manual rest _ hlook2
    · have hmemrest : ((c, mid, pid) : CostTriple) ∈ rest := by
        rcases List.mem_cons.1 hmem with h | h
        · exact absurd h.symm hTeq
        · exact h
      have hle : costLE (c2, mid2, pid2) (c, mid, pid) :=
        (List.sorted_cons.1 hsort).1 _ hmemrest
      have hnoconf : ¬(mid2 = mid ∨ pid2 = pid) := by
        intro hcon
        exact hconf (c2, mid2, pid2) (List.mem_cons_self _ _) hTeq hcon hle
      push_neg at hnoconf
      obtain ⟨hmm, hpp⟩ := hnoconf
      by_cases hguard : mid2 ∉ st.usedManual ∧ pid2 ∉ st.usedPyannote
      · rw [if_pos hguard]
        have hM2 : mid ∉ st.usedManual ++ [mid2] := by
          intro hx
          rcases List.mem_append.1 hx with hx | hx
          · exact hM hx
          · exact hmm (List.mem_singleton.1 hx).symm
        have hP2 : pid ∉ st.usedPyannote ++ [pid2] := by
          intro hx
          rcases List.mem_append.1 hx with hx | hx
          · exact hP hx
          · exact hpp (List.mem_singleton.1 hx).symm
        have hlen2 : (st.mapping ++ [(pid2, manualName manual mid2)]).length
            = (st.usedManual ++ [mid2]).length := by
          simp [hlen]
        have hndM2 : (st.usedManual ++ [mid2]).Nodup := nodup_append_single hndM hguard.1
        have hsubM2 : ∀ x ∈ st.usedManual ++ [mid2], x ∈ manual.map Prod.fst := by
          intro x hx
          rcases List.mem_append.1 hx with hx | hx
          · exact hsubM x hx
          · rw [List.mem_singleton.1 hx]
            exact hl (c2, mid2, pid2) (List.mem_cons_self _ _)
        have hlook2 : alookup (st.mapping ++ [(pid2, manualName manual mid2)]) pid = none := by
          rw [alookup_append_right _ hlook]
          simp [alookup, hpp]
        by_cases hbreak : (st.mapping ++ [(pid2, manualName manual mid2)]).length = manual.length
        · exfalso
          have hsub : st.usedManual ++ [mid2] ⊆ (manual.map Prod.fst).erase mid := by
            intro x hx
            have hxk : x ∈ manual.map Prod.fst := hsubM2 x hx
            have hxne : x ≠ mid := by
              intro e
              subst e
              exact hM2 hx
            exact (List.mem_erase_of_ne hxne).2 hxk
          have hle2 : (st.usedManual ++ [mid2]).length
              ≤ ((manual.map Prod.fst).erase mid).length :=
            (List.subperm_of_subset hndM2 hsub).length_le
          have herase : ((manual.map Prod.fst).erase mid).length + 1
              = (manual.map Prod.fst).length :=
            List.length_erase_add_one hmidkeys
          have hkl : (manual.map Prod.fst).length = manual.length := List.length_map _ _
          simp only [List.length_append, List.length_singleton] at hbreak hle2
          omega
        · rw [if_neg (by simpa using hbreak)]
          exact ih _ hrestsort hmemrest hrestconf hrestl hkeys hM2 hP2 hlen2 hndM2 hsubM2 hlook2
      · rw [if_neg hguard]
        exact ih _ hrestsort hmemrest hrestconf hrestl hkeys hM hP hlen hndM hsubM hlook

/-- Claim C3 (amended): if an anchor's timecode lies (at cost 0) within a
segment of exactly one candidate raw-label group, every other group having
strictly positive cost for this anchor, and additionally no other anchor has
cost 0 to that group, then the greedy matcher commits that anchor-to-group
pairing — a cost-0 pair wins against any positive-cost pair. -/
theorem c3_zero_cost_commit (manual : SpeakerDict) (segs : List Segment)
    (mid : String) (md : ManualData) (pid : String) (gsegs : List Segment)
    (hkeys : (manual.map Prod.fst).Nodup)
    (hm : (mid, md) ∈ manual)
    (hg : (pid, gsegs) ∈ groupByLabel segs)
    (h0 : calculate_min_distance_to_speaker md.timecode gsegs = 0)
    (hothers : ∀ p ∈ groupByLabel segs, p.1 ≠ pid →
      0 < calculate_min_distance_to_speaker md.timecode p.2)
    (hanchors : ∀ m ∈ manual, m.1 ≠ mid →
      0 < calculate_min_distance_to_speaker m.2.timecode gsegs) :
    alookup (map_pyannote_to_manual_speakers manual segs) pid = some md.name := by
  have hempty : manual ≠ [] := by
    intro e
    rw [e] at hm
    exact absurd hm (List.not_mem_nil _)
  have hgkeys : ((groupByLabel segs).map Prod.fst).Nodup := groupByKey_keys_nodup _ _
  unfold map_pyannote_to_manual_speakers
  rw [if_neg hempty]
  have hTmem : ((0 : WithTop ℚ), mid, pid)
      ∈ List.insertionSort costLE (costList (groupByLabel segs) manual) := by
    rw [(List.perm_insertionSort costLE _).mem_iff]
    rw [mem_costList_iff]
    exact ⟨(mid, md), hm, (pid, gsegs), hg, by rw [h0]⟩
  have hconf : ∀ T ∈ List.insertionSort costLE (costList (groupByLabel segs) manual),
      T ≠ ((0 : WithTop ℚ), mid, pid) → T.2.1 = mid ∨ T.2.2 = pid →
      ¬ costLE T ((0 : WithTop ℚ), mid, pid) := by
    intro T hT hTne hcon
    have hT2 := (List.perm_insertionSort costLE _).mem_iff.1 hT
    rcases (mem_costList_iff _ _ _).1 hT2 with ⟨m2, hm2, g2, hg2, rfl⟩
    have hla : alookup manual m2.1 = some m2.2 := alookup_mem hm2 hkeys
    have hlb : alookup manual mid = some md := alookup_mem hm hkeys
    have hga : alookup (groupByLabel segs) g2.1 = some g2.2 := alookup_mem hg2 hgkeys
    have hgb : alookup (groupByLabel segs) pid = some gsegs := alookup_mem hg hgkeys
    have hpos : 0 < calculate_min_distance_to_speaker m2.2.timecode g2.2 := by
      rcases hcon with hcmid | hcpid
      · have hcmid2 : m2.1 = mid := hcmid
        have hmd2 : m2.2 = md := by
          rw [hcmid2, hlb] at hla
          exact (Option.some_inj.mp hla).symm
        by_cases hgpid : g2.1 = pid
        · exfalso
          have hgs2 : g2.2 = gsegs := by
            rw [hgpid, hgb] at hga
            exact (Option.some_inj.mp hga).symm
          apply hTne
          rw [hcmid2, hgpid, hmd2, hgs2, h0]
        · rw [hmd2]
          exact hothers g2 hg2 hgpid
      · have hcpid2 : g2.1 = pid := hcpid
        have hgs2 : g2.2 = gsegs := by
          rw [hcpid2, hgb] at hga
          exact (Option.some_inj.mp hga).symm
        by_cases hcmid : m2.1 = mid
        · exfalso
          have hmd2 : m2.2 = md := by
            rw [hcmid, hlb] at hla
            exact (Option.some_inj.mp hla).symm
          apply hTne
          rw [hcmid, hcpid2, hmd2, hgs2, h0]
        · rw [hgs2]
          exact hanchors m2 hm2 hcmid
    intro hle
    rcases hle with hlt | ⟨heq, _⟩
    · have hlt2 : calculate_min_distance_to_speaker m2.2.timecode g2.2 < (0 : WithTop ℚ) := hlt
      exact absurd (hpos.trans hlt2) (lt_irrefl _)
    · have heq2 : calculate_min_distance_to_speaker m2.2.timecode g2.2 = (0 : WithTop ℚ) := heq
      exact absurd heq2 (ne_of_gt hpos)
  have hres := greedyAssign_commits manual 0 mid pid
    (List.insertionSort costLE (costList (groupByLabel segs) manual)) ⟨[], [], []⟩
    (List.sorted_insertionSort costLE _) hTmem hconf
    (fun T hT => costList_mid_mem ((List.perm_insertionSort costLE _).mem_iff.1 hT))
    hkeys (List.not_mem_nil _) (List.not_mem_nil _) rfl List.nodup_nil
    (fun x hx => absurd hx (List.not_mem_nil _)) rfl
  rw [hres]
  have : manualName manual mid = md.name := by
    rw [manualName, alookup_mem hm hkeys]
    rfl
  rw [this]

/-- Witness for C3 at the spec's own example: Alice@2 is the only anchor at
cost 0 to group `SPEAKER_00 = [0,5]` (Bob@10 is at cost 5) and her cost to
`SPEAKER_01 = [5,12]` is 3, so `SPEAKER_00 → Alice` is committed. -/
theorem c3_witness :
    (((([("MANUAL_00", ⟨"Alice", 2, 0⟩), ("MANUAL_01", ⟨"Bob", 10, 1⟩)] : SpeakerDict).map
        Prod.fst).Nodup)
      ∧ ("MANUAL_00", (⟨"Alice", 2, 0⟩ : ManualData))
          ∈ ([("MANUAL_00", ⟨"Alice", 2, 0⟩), ("MANUAL_01", ⟨"Bob", 10, 1⟩)] : SpeakerDict)
      ∧ ("SPEAKER_00", [(⟨"SPEAKER_00", 0, 5⟩ : Segment)])
          ∈ groupByLabel [⟨"SPEAKER_00", 0, 5⟩, ⟨"SPEAKER_01", 5, 12⟩]
      ∧ calculate_min_distance_to_speaker 2 [⟨"SPEAKER_00", 0, 5⟩] = 0)
    ∧ alookup (map_pyannote_to_manual_speakers
        [("MANUAL_00", ⟨"Alice", 2, 0⟩), ("MANUAL_01", ⟨"Bob", 10, 1⟩)]
        [⟨"SPEAKER_00", 0, 5⟩, ⟨"SPEAKER_01", 5, 12⟩]) "SPEAKER_00" = some "Alice" :=
  ⟨⟨by decide, by decide, by with_unfolding_all decide, by with_unfolding_all decide⟩,
   c3_zero_cost_commit _ _ "MANUAL_00" ⟨"Alice", 2, 0⟩ "SPEAKER_00" [⟨"SPEAKER_00", 0, 5⟩]
     (by decide) (by decide) (by with_unfolding_all decide) (by with_unfolding_all decide)
     (by with_unfolding_all decide) (by with_unfolding_all decide)⟩

/-- Counterexample for C3 as originally stated: anchor `MANUAL_01` ("B", at
timecode 2) lies within a segment of exactly one group (`SPEAKER_00 = [0,5]`,
cost 0; cost 8 to `SPEAKER_01 = [10,20]`), yet the matcher does not commit
`SPEAKER_00 → B`: the earlier-sorted cost-0 pair of anchor `MANUAL_00` ("A",
timecode 1) claims the group first. -/
theorem c3_counterexample :
    calculate_min_distance_to_speaker 2 [⟨"SPEAKER_00", 0, 5⟩] = 0
    ∧ calculate_min_distance_to_speaker 2 [⟨"SPEAKER_01", 10, 20⟩] = ((8 : ℚ) : WithTop ℚ)
    ∧ groupByLabel [⟨"SPEAKER_00", 0, 5⟩, ⟨"SPEAKER_01", 10, 20⟩]
        = [("SPEAKER_00", [⟨"SPEAKER_00", 0, 5⟩]), ("SPEAKER_01", [⟨"SPEAKER_01", 10, 20⟩])]
    ∧ map_pyannote_to_manual_speakers
        [("MANUAL_00", ⟨"A", 1, 0⟩), ("MANUAL_01", ⟨"B", 2, 1⟩)]
        [⟨"SPEAKER_00", 0, 5⟩, ⟨"SPEAKER_01", 10, 20⟩]
      = [("SPEAKER_00", "A"), ("SPEAKER_01", "B")]
    ∧ alookup (map_pyannote_to_manual_speakers
        [("MANUAL_00", ⟨"A", 1, 0⟩), ("MANUAL_01", ⟨"B", 2, 1⟩)]
        [⟨"SPEAKER_00", 0, 5⟩, ⟨"SPEAKER_01", 10, 20⟩]) "SPEAKER_00" ≠ some "B" := by
  refine ⟨?_, ?_, ?_, ?_, ?_⟩
  · with_unfolding_all decide
  · with_unfolding_all decide
  · with_unfolding_all decide
  · with_unfolding_all decide
  · with_unfolding_all decide

theorem stabilizeStep_nil_prev (gl : List (String × List Segment)) :
    ∀ (counter : ℕ) (used : List ℕ) (mapping : List (String × ℕ)),
    stabilizeStep counter used mapping [] gl
      = (mapping ++ (gl.map Prod.fst).zip (List.range' counter gl.length),
         counter + gl.length) := by
  induction gl with
  | nil => intro counter used mapping; simp [stabilizeStep]
  | cons p rest ih =>
    obtain ⟨lbl, g⟩ := p
    intro counter used mapping
    have hpick : pickBestPrev g used [] = none := rfl
    simp only [stabilizeStep, hpick]
    rw [ih]
    have hrange : List.range' counter (rest.length + 1)
        = counter :: List.range' (counter + 1) rest.length := List.range'_succ counter rest.length 1
    simp only [List.map_cons, List.length_cons, hrange, List.zip_cons_cons,
      List.append_assoc, List.singleton_append, Prod.mk.injEq]
    exact ⟨trivial, by omega⟩

theorem groupByLabel_keys (segs : List Segment) :
    (groupByLabel segs).map Prod.fst = firstEncounterLabels segs := by
  suffices h : ∀ acc : List (String × List Segment),
      ((segs.foldl (insertByKey Segment.speaker) acc).map Prod.fst)
        = segs.foldl (fun a s => if s.speaker ∈ a then a else a ++ [s.speaker])
            (acc.map Prod.fst) by
    exact h []
  induction segs with
  | nil => intro acc; rfl
  | cons s rest ih =>
    intro acc
    rw [List.foldl_cons, List.foldl_cons, ih, insertByKey_keys]

/-- Claim C4 (spec-modelled): the temporal-overlap stabilizer, invoked with an
empty previous (already-stabilized) history, mints one fresh stable identity
per distinct raw label of the current run, in first-encountered order, from the
sequential id counter — the resulting mapping pairs the first-encounter label
list with `counter, counter+1, …`, and the counter advances by the number of
distinct labels. -/
theorem c4_bootstrap_mints_sequential_ids (current : List Segment) (counter : ℕ) :
    stabilize_speakers [] current counter
      = ((firstEncounterLabels current).zip
          (List.range' counter (firstEncounterLabels current).length),
         counter + (firstEncounterLabels current).length) := by
  unfold stabilize_speakers
  have h0 : groupByKey StableSegment.speaker ([] : List StableSegment) = [] := rfl
  rw [h0, stabilizeStep_nil_prev]
  have hk : (groupByKey Segment.speaker current).map Prod.fst
      = firstEncounterLabels current := groupByLabel_keys current
  have hlen : (groupByKey Segment.speaker current).length
      = (firstEncounterLabels current).length := by
    rw [← hk, List.length_map]
  rw [List.nil_append, hk, hlen]

theorem dictInsert_keys {α : Type} :
    ∀ (l : List (String × α)) (k : String) (v : α) (x : String),
    x ∈ (dictInsert l k v).map Prod.fst → x ∈ l.map Prod.fst ∨ x = k := by
  intro l
  induction l with
  | nil =>
    intro k v x hx
    simp only [dictInsert, List.map_cons, List.map_nil, List.mem_singleton] at hx
    exact Or.inr hx
  | cons p rest ih =>
    obtain ⟨pk, pv⟩ := p
    intro k v x hx
    rw [List.map_cons]
    simp only [dictInsert] at hx
    by_cases hpk : pk = k
    · rw [if_pos hpk, List.map_cons] at hx
      rcases List.mem_cons.1 hx with h | h
      · exact Or.inr (h.trans hpk)
      · exact Or.inl (List.mem_cons_of_mem _ h)
    · rw [if_neg hpk, List.map_cons] at hx
      rcases List.mem_cons.1 hx with h | h
      · exact Or.inl (List.mem_cons.2 (Or.inl h))
      · rcases ih k v x h with h2 | h2
        · exact Or.inl (List.mem_cons.2 (Or.inr h2))
        · exact Or.inr h2

theorem reachable_key_bound (st : ServerState) (h : Reachable st) :
    ∀ k ∈ st.manualSpeakers.map Prod.fst, ∃ j, j < st.speakerCounter ∧ k = formatSpeakerId j := by
  obtain ⟨ops, rfl⟩ := h
  suffices h2 : ∀ (ops : List Op) (st0 : ServerState),
      (∀ k ∈ st0.manualSpeakers.map Prod.fst, ∃ j, j < st0.speakerCounter ∧ k = formatSpeakerId j) →
      ∀ k ∈ (ops.foldl applyOp st0).manualSpeakers.map Prod.fst,
        ∃ j, j < (ops.foldl applyOp st0).speakerCounter ∧ k = formatSpeakerId j by
    exact h2 ops initState (by simp [initState])
  intro ops2
  induction ops2 with
  | nil => exact fun st0 h0 => h0
  | cons op rest ih =>
    intro st0 hinv
    rw [List.foldl_cons]
    refine ih _ ?_
    cases op with
    | addSpeaker n t =>
      cases n with
      | none => exact hinv
      | some nm =>
        by_cases hemp : nm = ""
        · subst hemp
          exact hinv
        · cases t with
          | none =>
            have happ : applyOp st0 (Op.addSpeaker (some nm) none) = st0 := by
              simp [applyOp, add_speaker, hemp]
            rw [happ]
            exact hinv
          | some tc =>
            have hms : (applyOp st0 (Op.addSpeaker (some nm) (some tc))).manualSpeakers
                = dictInsert st0.manualSpeakers (formatSpeakerId st0.speakerCounter)
                  ⟨nm, tc, st0.manualSpeakers.length⟩ := by
              simp [applyOp, add_speaker, hemp]
            have hsc : (applyOp st0 (Op.addSpeaker (some nm) (some tc))).speakerCounter
                = st0.speakerCounter + 1 := by
              simp [applyOp, add_speaker, hemp]
            intro k hk
            rw [hms] at hk
            rw [hsc]
            rcases dictInsert_keys _ _ _ _ hk with h2 | h2
            · rcases hinv k h2 with ⟨j, hj, hjd⟩
              exact ⟨j, by omega, hjd⟩
            · exact ⟨st0.speakerCounter, by omega, h2⟩
    | updateSpeakerName i nm => exact hinv
    | processResult segs => exact hinv
    | addAudio ch => exact hinv
    | reset =>
      intro k hk
      simp [applyOp, reset] at hk

/-- Claim C9: `add_speaker` rejects a missing name, an empty name, or a
missing timecode with a validation error before touching any state; and on
every valid request (from any reachable server state) it mints the next
sequential anchor id `MANUAL_{counter:02d}`, advances the counter, appends the
anchor (with `order` = previous dict size) and returns it. -/
theorem c9_add_speaker_validates_then_mints (st : ServerState) :
    (∀ tc : Option ℚ, add_speaker st none tc = (st, Except.error "Name is required"))
    ∧ (∀ tc : Option ℚ, add_speaker st (some "") tc = (st, Except.error "Name is required"))
    ∧ (∀ name : String, name ≠ "" →
        add_speaker st (some name) none = (st, Except.error "Timecode is required"))
    ∧ (∀ (name : String) (tc : ℚ), name ≠ "" → Reachable st →
        add_speaker st (some name) (some tc)
          = ({ st with
                speakerCounter := st.speakerCounter + 1,
                manualSpeakers := st.manualSpeakers
                  ++ [(formatSpeakerId st.speakerCounter,
                       ⟨name, tc, st.manualSpeakers.length⟩)] },
             Except.ok ⟨formatSpeakerId st.speakerCounter, name, tc⟩)) := by
  refine ⟨fun tc => rfl, fun tc => rfl, fun name hn => by simp [add_speaker, hn], ?_⟩
  intro name tc hn hreach
  have hfresh : formatSpeakerId st.speakerCounter ∉ st.manualSpeakers.map Prod.fst := by
    intro hmem
    rcases reachable_key_bound st hreach _ hmem with ⟨j, hj, hjd⟩
    have := formatSpeakerId_injective hjd
    omega
  simp only [add_speaker, hn, if_neg hn]
  rw [dictInsert_of_not_mem _ hfresh]
  simp

/-- Witness for C9 at the start state with a valid request: name "Alice",
timecode 0 mints `MANUAL_00`. -/
theorem c9_witness :
    ("Alice" ≠ "" ∧ Reachable initState)
    ∧ (add_speaker initState (some "Alice") (some 0)).1.manualSpeakers
        = [("MANUAL_00", ⟨"Alice", 0, 0⟩)]
    ∧ (add_speaker initState (some "Alice") (some 0)).1.speakerCounter = 1
    ∧ (add_speaker initState (some "Alice") (some 0)).2
        = Except.ok ⟨"MANUAL_00", "Alice", 0⟩ := by
  have h := (c9_add_speaker_validates_then_mints initState).2.2.2 "Alice" 0
    (by decide) ⟨[], rfl⟩
  refine ⟨⟨by decide, ⟨[], rfl⟩⟩, ?_, ?_, ?_⟩
  · rw [h]
    rfl
  · rw [h]
    rfl
  · rw [h]
    rfl

theorem runMinted_spec : ∀ (ops : List Op) (st : ServerState), Op.reset ∉ ops →
    (runMinted st ops).Nodup
    ∧ ∀ idv ∈ runMinted st ops, ∃ j, st.speakerCounter ≤ j ∧ idv = formatSpeakerId j := by
  intro ops
  induction ops with
  | nil =>
    intro st _
    exact ⟨List.nodup_nil, by simp [runMinted]⟩
  | cons op rest ih =>
    intro st hnr
    have hnr2 : Op.reset ∉ rest := fun h => hnr (List.mem_cons_of_mem _ h)
    have hne : op ≠ Op.reset := fun e => hnr (e ▸ List.mem_cons_self _ _)
    cases op with
    | addSpeaker n t =>
      cases n with
      | none =>
        have h1 : mintedOf st (Op.addSpeaker none t) = [] := rfl
        have h2 : applyOp st (Op.addSpeaker none t) = st := rfl
        simp only [runMinted, h1, h2, List.nil_append]
        exact ih st hnr2
      | some nm =>
        by_cases hemp : nm = ""
        · subst hemp
          have h1 : mintedOf st (Op.addSpeaker (some "") t) = [] := rfl
          have h2 : applyOp st (Op.addSpeaker (some "") t) = st := rfl
          simp only [runMinted, h1, h2, List.nil_append]
          exact ih st hnr2
        · cases t with
          | none =>
            have h1 : mintedOf st (Op.addSpeaker (some nm) none) = [] := by
              simp [mintedOf, add_speaker, hemp]
            have h2 : applyOp st (Op.addSpeaker (some nm) none) = st := by
              simp [applyOp, add_speaker, hemp]
            simp only [runMinted, h1, h2, List.nil_append]
            exact ih st hnr2
          | some tc =>
            obtain ⟨ihn, ihb⟩ := ih (applyOp st (Op.addSpeaker (some nm) (some tc))) hnr2
            have h1 : mintedOf st (Op.addSpeaker (some nm) (some tc))
                = [formatSpeakerId st.speakerCounter] := by
              simp [mintedOf, add_speaker, hemp]
            have h2 : (applyOp st (Op.addSpeaker (some nm) (some tc))).speakerCounter
                = st.speakerCounter + 1 := by
              simp [applyOp, add_speaker, hemp]
            constructor
            · simp only [runMinted, h1, List.singleton_append, List.nodup_cons]
              refine ⟨?_, ihn⟩
              intro hmem
              rcases ihb _ hmem with ⟨j, hj, hid⟩
              rw [h2] at hj
              have := formatSpeakerId_injective hid
              omega
            · intro idv hmem
              simp only [runMinted, h1, List.singleton_append, List.mem_cons] at hmem
              rcases hmem with rfl | hmem
              · exact ⟨st.speakerCounter, le_rfl, rfl⟩
              · rcases ihb _ hmem with ⟨j, hj, hid⟩
                rw [h2] at hj
                exact ⟨j, by omega, hid⟩
    | updateSpeakerName i nm =>
      have h1 : mintedOf st (Op.updateSpeakerName i nm) = [] := rfl
      have h2 : applyOp st (Op.updateSpeakerName i nm) = st := rfl
      simp only [runMinted, h1, h2, List.nil_append]
      exact ih st hnr2
    | processResult segs =>
      obtain ⟨ihn, ihb⟩ := ih (applyOp st (Op.processResult segs)) hnr2
      refine ⟨by simpa [runMinted, mintedOf] using ihn, ?_⟩
      intro idv hmem
      simp only [runMinted, mintedOf, List.nil_append] at hmem
      exact ihb _ hmem
    | addAudio ch =>
      obtain ⟨ihn, ihb⟩ := ih (applyOp st (Op.addAudio ch)) hnr2
      refine ⟨by simpa [runMinted, mintedOf] using ihn, ?_⟩
      intro idv hmem
      simp only [runMinted, mintedOf, List.nil_append] at hmem
      exact ihb _ hmem
    | reset => exact absurd rfl hne

/-- Claim C7 (amended): anchor ids minted by `add_speaker` are pairwise
distinct within a session — across any request sequence that contains no
`reset` — but `reset()` restarts the id counter at 0, so an id issued before a
reset is reused after it (see the counterexample). -/
theorem c7_ids_unique_within_session (st : ServerState) (ops : List Op)
    (h : Op.reset ∉ ops) : (runMinted st ops).Nodup :=
  (runMinted_spec ops st h).1

/-- Witness for C7: two successive valid add requests in one session mint the
distinct ids `MANUAL_00` and `MANUAL_01`. -/
theorem c7_witness :
    Op.reset ∉ [Op.addSpeaker (some "Alice") (some 0), Op.addSpeaker (some "Bob") (some 1)]
    ∧ (runMinted initState
        [Op.addSpeaker (some "Alice") (some 0), Op.addSpeaker (some "Bob") (some 1)]).Nodup :=
  ⟨by decide, c7_ids_unique_within_session initState _ (by decide)⟩

/-- Counterexample for C7 as originally stated: `reset()` sets the counter back
to 0, so the id minted before a reset (`MANUAL_00`) is minted again by the
first add after the reset — ids are reused across a reset. -/
theorem c7_counterexample :
    (add_speaker initState (some "Alice") (some 0)).2
        = Except.ok ⟨"MANUAL_00", "Alice", 0⟩
    ∧ (add_speaker (reset (add_speaker initState (some "Alice") (some 0)).1)
        (some "Bob") (some 1)).2
        = Except.ok ⟨"MANUAL_00", "Bob", 1⟩ :=
  ⟨rfl, rfl⟩

end BalanceMyMeetings
